import Mathlib

/-!
Shallow embedding of the deepvariant core utilities
(src/deepvariant/core/utils.h) together with proofs about them.

The header under verification declares the coordinate, ordering and
annotation primitives of the library.  The templated functions
(SetValuesValue, SetInfoField, ListValues) carry their bodies in the
header and are embedded from that source; the remaining functions are
present only as declarations with doc comments, so their bodies are
modelled from the specification as noted on each definition.
-/

namespace DeepVariant

/-- Enum specifying a group of canonical DNA sequence bases
(CanonicalBases in utils.h: ACGT, or ACGTN which also allows N). -/
inductive CanonicalBases where
  | ACGT
  | ACGTN
deriving DecidableEq

/-- Kind of a cigar alignment operation, as in the genomics CigarUnit
proto referenced by utils.h (spec section 3, AlignmentOperation.kind). -/
inductive CigarKind where
  | Match
  | Insert
  | Delete
  | Skip
  | SoftClip
  | HardClip
  | Pad
  | SequenceMatch
  | SequenceMismatch
deriving DecidableEq

/-- One alignment operation: a kind plus a non-negative length
(spec section 3, AlignmentOperation). -/
structure AlignmentOperation where
  kind : CigarKind
  length : Nat
deriving DecidableEq

/-- Read record, restricted to the fields the utils.h functions consume
(spec section 3): alignment contig, alignment start, cigar, mate contig. -/
structure Read where
  alignment_contig_name : String
  alignment_start : Int
  cigar : List AlignmentOperation
  mate_contig_name : String

/-- Position proto: reference name, 0-based coordinate, strand. -/
structure Position where
  reference_name : String
  position : Int
  reverse_strand : Bool
deriving DecidableEq

/-- Range proto: reference name and half-open interval bounds. -/
structure Range where
  reference_name : String
  start : Int
  «end» : Int
deriving DecidableEq

/-- Whether a cigar operation kind consumes reference sequence.
Modelled from the spec: the body of ReadEnd is not in the header, only
its declaration; the spec lists Match, Delete, Skip, SequenceMatch and
SequenceMismatch as reference-consuming and Insert, SoftClip, HardClip
and Pad as skipped. -/
def consumesReference : CigarKind → Bool
  | .Match => true
  | .Delete => true
  | .Skip => true
  | .SequenceMatch => true
  | .SequenceMismatch => true
  | .Insert => false
  | .SoftClip => false
  | .HardClip => false
  | .Pad => false

/-- Reference length of a cigar: a single left-to-right pass accumulating
the lengths of reference-consuming operations.  Modelled from the spec:
the header only declares ReadEnd and points at the htsjdk
getReferenceLength loop; each operation contributes its length when its
kind consumes reference and nothing otherwise. -/
def referenceLength : List AlignmentOperation → Nat
  | [] => 0
  | op :: rest => (if consumesReference op.kind then op.length else 0) + referenceLength rest

/-- Starting position of a read: the recorded alignment start, unmodified
(utils.h ReadStart doc comment; spec section 4.3). -/
def ReadStart (read : Read) : Int :=
  read.alignment_start

/-- Inclusive end position of a read.  Modelled from the spec: the body of
ReadEnd is absent from the header; the spec gives
alignment_start + (sum of reference-consuming cigar lengths) - 1. -/
def ReadEnd (read : Read) : Int :=
  read.alignment_start + referenceLength read.cigar - 1

/-- Containment of one range in another.  Modelled from the spec: the
header only declares RangeContains ("true iff range needle is wholly
contained in haystack"); the spec gives equal contig names, haystack
start at most needle start, and needle end at most haystack end. -/
def RangeContains (haystack needle : Range) : Bool :=
  haystack.reference_name == needle.reference_name &&
    haystack.start ≤ needle.start &&
    needle.«end» ≤ haystack.«end»

/-- Atomic canonical-base check.  Modelled from the spec: the header only
declares IsCanonicalBase; the alphabets are the uppercase letters A, C,
G, T and, for ACGTN, also N, matched case-sensitively. -/
def IsCanonicalBase (base : Char) (canon : CanonicalBases) : Bool :=
  match canon with
  | .ACGT => base == 'A' || base == 'C' || base == 'G' || base == 'T'
  | .ACGTN => base == 'A' || base == 'C' || base == 'G' || base == 'T' || base == 'N'

/-- Sequence canonical-base check.  Modelled from the spec: the header
only declares AreCanonicalBases; the scan is a single left-to-right pass
that stops at the first disallowed symbol and reports its index.  The
boolean result is paired with the reported bad position (none when every
symbol is allowed), modelling the optional bad_position out-parameter. -/
def AreCanonicalBases (bases : List Char) (canon : CanonicalBases) : Bool × Option Nat :=
  match bases with
  | [] => (true, none)
  | c :: rest =>
    if IsCanonicalBase c canon then
      let r := AreCanonicalBases rest canon
      (r.1, r.2.map (· + 1))
    else
      (false, some 0)

lemma areCanonicalBases_fst (bases : List Char) (canon : CanonicalBases) :
    (AreCanonicalBases bases canon).1 = bases.all (IsCanonicalBase · canon) := by
  induction bases with
  | nil => rfl
  | cons c rest ih =>
    by_cases h : IsCanonicalBase c canon
    · simp [AreCanonicalBases, h, ih]
    · simp [AreCanonicalBases, h]

lemma areCanonicalBases_fst_false_iff (bases : List Char) (canon : CanonicalBases) :
    (AreCanonicalBases bases canon).1 = false ↔
      ∃ i, (AreCanonicalBases bases canon).2 = some i := by
  induction bases with
  | nil => simp [AreCanonicalBases]
  | cons c rest ih =>
    by_cases h : IsCanonicalBase c canon
    · simp only [AreCanonicalBases, if_pos h]
      constructor
      · intro hf
        obtain ⟨j, hj⟩ := ih.mp hf
        exact ⟨j + 1, by simp [hj]⟩
      · intro hex
        obtain ⟨i, hi⟩ := hex
        rw [Option.map_eq_some'] at hi
        obtain ⟨j, hj, _⟩ := hi
        exact ih.mpr ⟨j, hj⟩
    · simp [AreCanonicalBases, h]

lemma areCanonicalBases_snd_some (bases : List Char) (canon : CanonicalBases) (i : Nat)
    (h : (AreCanonicalBases bases canon).2 = some i) :
    i < bases.length ∧ IsCanonicalBase (bases.getD i 'A') canon = false ∧
      ∀ j < i, IsCanonicalBase (bases.getD j 'A') canon = true := by
  induction bases generalizing i with
  | nil => simp [AreCanonicalBases] at h
  | cons c rest ih =>
    by_cases hc : IsCanonicalBase c canon
    · simp only [AreCanonicalBases, if_pos hc, Option.map_eq_some'] at h
      obtain ⟨i0, hi0, rfl⟩ := h
      obtain ⟨hlen, hbad, hgood⟩ := ih i0 hi0
      refine ⟨by simpa using hlen, by simpa using hbad, ?_⟩
      intro j hj
      cases j with
      | zero => simpa using hc
      | succ j0 => simpa using hgood j0 (Nat.lt_of_succ_lt_succ hj)
    · simp only [AreCanonicalBases, if_neg hc, Option.some.injEq] at h
      subst h
      exact ⟨Nat.succ_pos _, by simpa using hc, fun j hj => absurd hj (Nat.not_lt_zero j)⟩

/-- C2: for non-empty sequences, the boolean result for ACGT holds exactly
when every symbol is one of A, C, G, T, and for ACGTN exactly when every
symbol is one of A, C, G, T, N; whenever a bad position is reported the
result is false and the position is the index of the first symbol outside
the chosen alphabet. -/
theorem areCanonicalBases_spec (bases : List Char) (hne : bases ≠ []) :
    ((AreCanonicalBases bases .ACGT).1 = true ↔
      ∀ c ∈ bases, c = 'A' ∨ c = 'C' ∨ c = 'G' ∨ c = 'T') ∧
    ((AreCanonicalBases bases .ACGTN).1 = true ↔
      ∀ c ∈ bases, c = 'A' ∨ c = 'C' ∨ c = 'G' ∨ c = 'T' ∨ c = 'N') ∧
    (∀ canon : CanonicalBases, ∀ i : Nat,
      (AreCanonicalBases bases canon).2 = some i →
        (AreCanonicalBases bases canon).1 = false ∧
        i < bases.length ∧
        IsCanonicalBase (bases.getD i 'A') canon = false ∧
        ∀ j < i, IsCanonicalBase (bases.getD j 'A') canon = true) ∧
    (∀ canon : CanonicalBases,
      (AreCanonicalBases bases canon).1 = false →
        ∃ i, (AreCanonicalBases bases canon).2 = some i) := by
  refine ⟨?_, ?_, ?_, ?_⟩
  · rw [areCanonicalBases_fst, List.all_eq_true]
    constructor
    · intro h c hc
      have := h c hc
      simpa [IsCanonicalBase, or_assoc] using this
    · intro h c hc
      have := h c hc
      simpa [IsCanonicalBase, or_assoc] using this
  · rw [areCanonicalBases_fst, List.all_eq_true]
    constructor
    · intro h c hc
      have := h c hc
      simpa [IsCanonicalBase, or_assoc] using this
    · intro h c hc
      have := h c hc
      simpa [IsCanonicalBase, or_assoc] using this
  · intro canon i h
    have hsome : ∃ j, (AreCanonicalBases bases canon).2 = some j := ⟨i, h⟩
    exact ⟨(areCanonicalBases_fst_false_iff bases canon).mpr hsome,
      areCanonicalBases_snd_some bases canon i h⟩
  · intro canon h
    exact (areCanonicalBases_fst_false_iff bases canon).mp h

/-- Witness for C2 at the concrete sequence [A, X, C]. -/
theorem areCanonicalBases_spec_witness :
    (['A', 'X', 'C'] : List Char) ≠ [] ∧
    ((AreCanonicalBases ['A', 'X', 'C'] .ACGT).1 = true ↔
      ∀ c ∈ ['A', 'X', 'C'], c = 'A' ∨ c = 'C' ∨ c = 'G' ∨ c = 'T') :=
  ⟨by decide, (areCanonicalBases_spec ['A', 'X', 'C'] (by decide)).1⟩

lemma referenceLength_eq_sum (cigar : List AlignmentOperation) :
    referenceLength cigar =
      ((cigar.filter (fun op => consumesReference op.kind)).map
        AlignmentOperation.length).sum := by
  induction cigar with
  | nil => rfl
  | cons op rest ih =>
    by_cases h : consumesReference op.kind
    · simp [referenceLength, List.filter_cons, h, ih]
    · simp [referenceLength, List.filter_cons, h, ih]

/-- C1: ReadEnd is alignment_start plus the summed lengths of exactly the
reference-consuming cigar operations (Match, Delete, Skip, SequenceMatch,
SequenceMismatch) minus 1, while Insert, SoftClip, HardClip and Pad
contribute nothing; on alignment_start 100 with cigar
[Match 5, Insert 2, Delete 3, SoftClip 4], ReadStart is 100 and ReadEnd
is 107. -/
theorem readEnd_spec :
    (∀ read : Read,
      ReadEnd read =
        read.alignment_start +
          ((read.cigar.filter (fun op => consumesReference op.kind)).map
            AlignmentOperation.length).sum - 1) ∧
    (∀ read : Read, ReadStart read = read.alignment_start) ∧
    (ReadStart ⟨"chr1", 100, [⟨.Match, 5⟩, ⟨.Insert, 2⟩, ⟨.Delete, 3⟩, ⟨.SoftClip, 4⟩], ""⟩
        = 100 ∧
      ReadEnd ⟨"chr1", 100, [⟨.Match, 5⟩, ⟨.Insert, 2⟩, ⟨.Delete, 3⟩, ⟨.SoftClip, 4⟩], ""⟩
        = 107) := by
  refine ⟨fun read => ?_, fun read => rfl, by decide, by decide⟩
  rw [ReadEnd, referenceLength_eq_sum]

/-- C3: RangeContains is exactly same-contig whole containment
(haystack.start at most needle.start and needle.end at most haystack.end),
so in particular every range contains itself. -/
theorem rangeContains_spec :
    (∀ haystack needle : Range,
      RangeContains haystack needle = true ↔
        (haystack.reference_name = needle.reference_name ∧
          haystack.start ≤ needle.start ∧
          needle.«end» ≤ haystack.«end»)) ∧
    (∀ r : Range, RangeContains r r = true) := by
  constructor
  · intro haystack needle
    simp [RangeContains, and_assoc]
  · intro r
    simp [RangeContains]

/-- Typed value as stored by the SetValuesValue overloads in utils.h: the
arithmetic overload calls set_number_value and the generic one calls
set_string_value, so an entry holds either a number or a string.  The
numeric payload is a C++ double in the proto; it is modelled as Int here
because every arithmetic value the claims exercise is an integer that a
double represents exactly. -/
inductive Value where
  | number (n : Int)
  | str (s : String)
deriving DecidableEq

/-- Protobuf getter number_value: the numeric field of the entry, whose
default is zero when the entry holds a string instead. -/
def Value.numberValue : Value → Int
  | .number n => n
  | .str _ => 0

/-- ListValue proto: an ordered sequence of typed values. -/
abbrev ListValue := List Value

/-- Info map of a Variant or VariantCall proto: string key to ListValue;
indexing an absent key yields a default-constructed empty list, as with
the protobuf mutable map operator. -/
abbrev Info := String → ListValue

/-- SetValuesValue, arithmetic overload (utils.h lines 189-194): stores
the value with set_number_value. -/
def SetValuesValue (value : Int) : Value :=
  Value.number value

/-- SetInfoField, list overload (utils.h lines 212-219): clears the values
bound to key in the info map, then appends each supplied value in order
via SetValuesValue. -/
def SetInfoField (key : String) (values : List Int) (info : Info) : Info :=
  let cleared : Info := fun k => if k = key then [] else info k
  values.foldl
    (fun acc value => fun k => if k = key then acc k ++ [SetValuesValue value] else acc k)
    cleared

/-- SetInfoField, scalar overload (utils.h lines 221-225): delegates to
the list overload with a one-element vector. -/
def SetInfoFieldSingle (key : String) (value : Int) (info : Info) : Info :=
  SetInfoField key [value] info

/-- ListValues, arithmetic projection (utils.h lines 235-243): reads
number_value off every entry in order. -/
def ListValues (list_value : ListValue) : List Int :=
  list_value.map Value.numberValue

lemma setInfoField_loop_key (key : String) (values : List Int) (acc : Info) :
    (values.foldl
      (fun acc value => fun k => if k = key then acc k ++ [SetValuesValue value] else acc k)
      acc) key = acc key ++ values.map Value.number := by
  induction values generalizing acc with
  | nil => simp
  | cons v rest ih =>
    simp only [List.foldl_cons, List.map_cons, ih, if_pos rfl]
    simp [SetValuesValue, List.append_assoc]

lemma setInfoField_loop_ne (key : String) (values : List Int) (acc : Info)
    (k : String) (hk : k ≠ key) :
    (values.foldl
      (fun acc value => fun k => if k = key then acc k ++ [SetValuesValue value] else acc k)
      acc) k = acc k := by
  induction values generalizing acc with
  | nil => simp
  | cons v rest ih =>
    simp only [List.foldl_cons, ih, if_neg hk]

/-- C4: SetInfoField binds key to exactly the supplied values in order,
discarding any previous binding and touching no other key, and the
arithmetic ListValues projection reads those values back in order; in
particular writing DP to 10 reads back [10] and overwriting with 20 reads
back [20]. -/
theorem setInfoField_spec (key : String) (values : List Int) (info : Info) :
    (SetInfoField key values info key = values.map Value.number) ∧
    (∀ k, k ≠ key → SetInfoField key values info k = info k) ∧
    (ListValues (SetInfoField key values info key) = values) ∧
    (∀ info0 : Info,
      ListValues (SetInfoFieldSingle "DP" 10 info0 "DP") = [10] ∧
      ListValues (SetInfoFieldSingle "DP" 20 (SetInfoFieldSingle "DP" 10 info0) "DP")
        = [20]) := by
  have hkey : SetInfoField key values info key = values.map Value.number := by
    rw [SetInfoField, setInfoField_loop_key]
    simp
  refine ⟨hkey, ?_, ?_, ?_⟩
  · intro k hk
    rw [SetInfoField, setInfoField_loop_ne key values _ k hk]
    simp [hk]
  · rw [hkey, ListValues, List.map_map]
    simp [Function.comp_def, Value.numberValue]
  · intro info0
    constructor
    · rw [SetInfoFieldSingle, SetInfoField, setInfoField_loop_key]
      simp [ListValues, Value.numberValue]
    · rw [SetInfoFieldSingle, SetInfoField, setInfoField_loop_key]
      simp [ListValues, Value.numberValue]

/-- Witness for C4 at key DP, values [10, 20], the empty info map, and
the untouched key AD. -/
theorem setInfoField_spec_witness :
    (SetInfoField "DP" [10, 20] (fun _ => []) "DP" = [Value.number 10, Value.number 20]) ∧
    (("AD" : String) ≠ "DP" ∧ SetInfoField "DP" [10, 20] (fun _ => []) "AD" = []) ∧
    (ListValues (SetInfoField "DP" [10, 20] (fun _ => []) "DP") = [10, 20]) :=
  ⟨(setInfoField_spec "DP" [10, 20] (fun _ => [])).1,
    ⟨by decide, (setInfoField_spec "DP" [10, 20] (fun _ => [])).2.1 "AD" (by decide)⟩,
    (setInfoField_spec "DP" [10, 20] (fun _ => [])).2.2.1⟩

/-- C8: the arithmetic ListValues projection of a ListValue whose entries
are all string-typed reports no error: it returns one zero (the default
of the numeric field) per entry. -/
theorem listValues_string_entries (lv : ListValue)
    (h : ∀ v ∈ lv, ∃ s, v = Value.str s) :
    ListValues lv = List.replicate lv.length 0 := by
  induction lv with
  | nil => rfl
  | cons v rest ih =>
    obtain ⟨s, rfl⟩ := h v (List.mem_cons_self v rest)
    have hrest : ∀ w ∈ rest, ∃ s, w = Value.str s :=
      fun w hw => h w (List.mem_cons_of_mem _ hw)
    simp [ListValues, Value.numberValue, List.replicate_succ] at ih ⊢
    exact ih hrest

/-- Witness for C8 at the all-string list [str GT, str PASS]. -/
theorem listValues_string_entries_witness :
    (∀ v ∈ ([Value.str "GT", Value.str "PASS"] : ListValue), ∃ s, v = Value.str s) ∧
    ListValues [Value.str "GT", Value.str "PASS"] = List.replicate 2 0 :=
  have h : ∀ v ∈ ([Value.str "GT", Value.str "PASS"] : ListValue), ∃ s, v = Value.str s := by
    intro v hv
    simp only [List.mem_cons, List.not_mem_nil, or_false] at hv
    rcases hv with rfl | rfl
    · exact ⟨"GT", rfl⟩
    · exact ⟨"PASS", rfl⟩
  ⟨h, listValues_string_entries [Value.str "GT", Value.str "PASS"] h⟩

/-- C9: the scalar SetInfoField overload leaves the info map in exactly
the state the list overload produces on the one-element list, at every
key. -/
theorem setInfoFieldSingle_spec (key : String) (value : Int) (info : Info) :
    ∀ k, SetInfoFieldSingle key value info k = SetInfoField key [value] info k :=
  fun _ => rfl

/-- Variant record, restricted to the fields the utils.h functions
consume (spec section 3): reference name, start coordinate, info map. -/
structure Variant where
  reference_name : String
  start : Int
  info : Info

/-- ContigInfo record (spec section 3): contig name and its rank in the
reference FASTA. -/
structure ContigInfo where
  name : String
  pos_in_fasta : Int

/-- MakePosition from a contig name, coordinate and strand (utils.h lines
82-83): pure construction. -/
def MakePosition (chr : String) (pos : Int) (reverse_strand : Bool) : Position :=
  ⟨chr, pos, reverse_strand⟩

/-- MakePosition from a Variant (utils.h lines 86-87): projects
reference_name and start, with reverse_strand false (spec section 4.2). -/
def MakePositionOfVariant (variant : Variant) : Position :=
  ⟨variant.reference_name, variant.start, false⟩

/-- ComparePositions on Position protos.  Modelled from the spec: the
header only declares it ("compares pos1 and pos2, lexicographically by
reference_name then by position"); the result is an int that is negative
for less, zero for equal and positive for greater. -/
def ComparePositions (pos1 pos2 : Position) : Int :=
  if pos1.reference_name < pos2.reference_name then -1
  else if pos2.reference_name < pos1.reference_name then 1
  else if pos1.position < pos2.position then -1
  else if pos2.position < pos1.position then 1
  else 0

/-- ComparePositions on Variants (utils.h lines 121-122): compares the
positions of the two variants via ComparePositions, so only reference
name and start participate. -/
def ComparePositionsOfVariants (variant1 variant2 : Variant) : Int :=
  ComparePositions (MakePositionOfVariant variant1) (MakePositionOfVariant variant2)

lemma comparePositions_cases (p1 p2 : Position) :
    (ComparePositions p1 p2 < 0 ↔
      (p1.reference_name < p2.reference_name ∨
        (p1.reference_name = p2.reference_name ∧ p1.position < p2.position))) ∧
    (0 < ComparePositions p1 p2 ↔
      (p2.reference_name < p1.reference_name ∨
        (p2.reference_name = p1.reference_name ∧ p2.position < p1.position))) ∧
    (ComparePositions p1 p2 = 0 ↔
      (p1.reference_name = p2.reference_name ∧ p1.position = p2.position)) := by
  unfold ComparePositions
  rcases lt_trichotomy p1.reference_name p2.reference_name with hn | hn | hn
  · rw [if_pos hn]
    refine ⟨iff_of_true (by norm_num) (Or.inl hn),
      iff_of_false (by norm_num) ?_, iff_of_false (by norm_num) ?_⟩
    · rintro (h | ⟨h, _⟩)
      · exact lt_asymm hn h
      · exact (ne_of_lt hn) h.symm
    · rintro ⟨h, _⟩
      exact (ne_of_lt hn) h
  · rw [if_neg (by rw [hn]; exact lt_irrefl _), if_neg (by rw [hn]; exact lt_irrefl _)]
    rcases lt_trichotomy p1.position p2.position with hp | hp | hp
    · rw [if_pos hp]
      refine ⟨iff_of_true (by norm_num) (Or.inr ⟨hn, hp⟩),
        iff_of_false (by norm_num) ?_, iff_of_false (by norm_num) ?_⟩
      · rintro (h | ⟨_, h⟩)
        · rw [hn] at h; exact lt_irrefl _ h
        · exact lt_asymm hp h
      · rintro ⟨_, h⟩
        exact (ne_of_lt hp) h
    · rw [if_neg (by rw [hp]; exact lt_irrefl _), if_neg (by rw [hp]; exact lt_irrefl _)]
      refine ⟨iff_of_false (by norm_num) ?_, iff_of_false (by norm_num) ?_,
        iff_of_true rfl ⟨hn, hp⟩⟩
      · rintro (h | ⟨_, h⟩)
        · rw [hn] at h; exact lt_irrefl _ h
        · rw [hp] at h; exact lt_irrefl _ h
      · rintro (h | ⟨_, h⟩)
        · rw [hn] at h; exact lt_irrefl _ h
        · rw [hp] at h; exact lt_irrefl _ h
    · rw [if_neg (lt_asymm hp), if_pos hp]
      refine ⟨iff_of_false (by norm_num) ?_,
        iff_of_true (by norm_num) (Or.inr ⟨hn.symm, hp⟩),
        iff_of_false (by norm_num) ?_⟩
      · rintro (h | ⟨_, h⟩)
        · rw [hn] at h; exact lt_irrefl _ h
        · exact lt_asymm hp h
      · rintro ⟨_, h⟩
        exact (ne_of_lt hp) h.symm
  · rw [if_neg (lt_asymm hn), if_pos hn]
    refine ⟨iff_of_false (by norm_num) ?_,
      iff_of_true (by norm_num) (Or.inl hn), iff_of_false (by norm_num) ?_⟩
    · rintro (h | ⟨h, _⟩)
      · exact lt_asymm hn h
      · exact (ne_of_lt hn) h.symm
    · rintro ⟨h, _⟩
      exact (ne_of_lt hn) h.symm

/-- C7: ComparePositions orders lexicographically by reference name under
ordinary string comparison and then by coordinate: its sign is negative,
zero or positive exactly per that lexicographic rule; the chr1:100 versus
chr1:200 pair compares less and the chr2:1 versus chr1:999999 pair
compares greater; and the Variant overload compares the two variants
through their (reference_name, start) projections. -/
theorem comparePositions_spec :
    (∀ p1 p2 : Position,
      (ComparePositions p1 p2 < 0 ↔
        (p1.reference_name < p2.reference_name ∨
          (p1.reference_name = p2.reference_name ∧ p1.position < p2.position))) ∧
      (0 < ComparePositions p1 p2 ↔
        (p2.reference_name < p1.reference_name ∨
          (p2.reference_name = p1.reference_name ∧ p2.position < p1.position))) ∧
      (ComparePositions p1 p2 = 0 ↔
        (p1.reference_name = p2.reference_name ∧ p1.position = p2.position))) ∧
    (ComparePositions (MakePosition "chr1" 100 false) (MakePosition "chr1" 200 false) < 0) ∧
    (0 < ComparePositions (MakePosition "chr2" 1 false) (MakePosition "chr1" 999999 false)) ∧
    (∀ variant1 variant2 : Variant,
      ComparePositionsOfVariants variant1 variant2 =
        ComparePositions (MakePositionOfVariant variant1) (MakePositionOfVariant variant2)) := by
  have h12 : ("chr1" : String) < "chr2" := by
    rw [String.lt_iff_toList_lt]
    decide
  refine ⟨comparePositions_cases, ?_, ?_, fun _ _ => rfl⟩
  · exact (comparePositions_cases _ _).1.mpr (Or.inr ⟨rfl, (by norm_num : (100 : Int) < 200)⟩)
  · exact (comparePositions_cases _ _).2.1.mpr (Or.inl h12)

/-- MapContigNameToPosInFasta.  Modelled from the spec: the header only
declares it; it builds the name-to-rank lookup where each contig name is
bound to its stated pos_in_fasta, here realised as a lookup function over
the contig list (absent names map to none). -/
def MapContigNameToPosInFasta (contigs : List ContigInfo) : String → Option Int :=
  fun name => (contigs.find? (fun c => c.name == name)).map ContigInfo.pos_in_fasta

/-- CompareVariants.  Modelled from the spec: the header only declares it
("true if Variant a should appear before Variant b", a Compare for
std::sort); it compares the two contig ranks from the supplied lookup,
the lower rank sorting first, and on equal ranks falls back to the start
coordinates.  The spec leaves a variant whose contig is absent from the
lookup unspecified; this model deterministically treats such a variant as
never sorting strictly before anything. -/
def CompareVariants (a b : Variant) (contig_name_to_pos_in_fasta : String → Option Int) :
    Bool :=
  match contig_name_to_pos_in_fasta a.reference_name,
      contig_name_to_pos_in_fasta b.reference_name with
  | some ra, some rb => if ra = rb then decide (a.start < b.start) else decide (ra < rb)
  | _, _ => false

lemma compareVariants_eq_true_iff (a b : Variant) (m : String → Option Int) :
    CompareVariants a b m = true ↔
      ∃ ra rb : Int, m a.reference_name = some ra ∧ m b.reference_name = some rb ∧
        (ra < rb ∨ (ra = rb ∧ a.start < b.start)) := by
  unfold CompareVariants
  rcases ha : m a.reference_name with _ | ra
  · simp [ha]
  · rcases hb : m b.reference_name with _ | rb
    · simp [hb]
    · by_cases h : ra = rb
      · subst h
        simp [lt_irrefl]
      · simp [h]

/-- Contig lookup for the out-of-lexicographic-order demonstration:
chr2 has rank 0 and chr1 has rank 1. -/
def demoLookup : String → Option Int :=
  MapContigNameToPosInFasta [⟨"chr2", 0⟩, ⟨"chr1", 1⟩]

/-- Empty info map, as on a freshly constructed Variant proto. -/
def emptyInfo : Info :=
  fun _ => []

/-- C5: when both reference names are present in the lookup,
CompareVariants holds exactly when the first contig rank is lower, or the
ranks are equal and the first start coordinate is smaller; with contigs
[chr2 at rank 0, chr1 at rank 1] a chr2 variant sorts before a chr1
variant, so the order is genome order rather than name order. -/
theorem compareVariants_spec :
    (∀ (a b : Variant) (m : String → Option Int) (ra rb : Int),
      m a.reference_name = some ra → m b.reference_name = some rb →
      (CompareVariants a b m = true ↔ (ra < rb ∨ (ra = rb ∧ a.start < b.start)))) ∧
    (∀ (sa sb : Int) (ia ib : Info),
      CompareVariants ⟨"chr2", sa, ia⟩ ⟨"chr1", sb, ib⟩ demoLookup = true) := by
  constructor
  · intro a b m ra rb ha hb
    rw [compareVariants_eq_true_iff]
    constructor
    · rintro ⟨ra0, rb0, ha0, hb0, h⟩
      rw [ha] at ha0
      rw [hb] at hb0
      obtain rfl := Option.some.inj ha0
      obtain rfl := Option.some.inj hb0
      exact h
    · intro h
      exact ⟨ra, rb, ha, hb, h⟩
  · intro sa sb ia ib
    rw [compareVariants_eq_true_iff]
    exact ⟨0, 1, rfl, rfl, Or.inl (by norm_num)⟩

/-- Witness for C5 at a chr2 variant with start 7 and a chr1 variant with
start 3 under the rank lookup. -/
theorem compareVariants_spec_witness :
    demoLookup (Variant.reference_name ⟨"chr2", 7, emptyInfo⟩) = some 0 ∧
    demoLookup (Variant.reference_name ⟨"chr1", 3, emptyInfo⟩) = some 1 ∧
    (CompareVariants ⟨"chr2", 7, emptyInfo⟩ ⟨"chr1", 3, emptyInfo⟩ demoLookup = true ↔
      ((0 : Int) < 1 ∨ ((0 : Int) = 1 ∧ (7 : Int) < 3))) :=
  ⟨rfl, rfl,
    compareVariants_spec.1 ⟨"chr2", 7, emptyInfo⟩ ⟨"chr1", 3, emptyInfo⟩ demoLookup 0 1 rfl rfl⟩

/-- C6: CompareVariants with a fixed lookup is irreflexive, asymmetric and
transitive, the strict-weak-ordering conditions the claim lists for a
std::sort comparator. -/
theorem compareVariants_strict_weak_order (m : String → Option Int) :
    (∀ a : Variant, CompareVariants a a m = false) ∧
    (∀ a b : Variant, CompareVariants a b m = true → CompareVariants b a m = false) ∧
    (∀ a b c : Variant, CompareVariants a b m = true → CompareVariants b c m = true →
      CompareVariants a c m = true) := by
  refine ⟨?_, ?_, ?_⟩
  · intro a
    rw [Bool.eq_false_iff]
    intro h
    obtain ⟨ra, rb, ha, hb, hlt⟩ := (compareVariants_eq_true_iff a a m).mp h
    rw [ha] at hb
    obtain rfl := Option.some.inj hb
    rcases hlt with h1 | ⟨_, h2⟩
    · exact lt_irrefl _ h1
    · exact lt_irrefl _ h2
  · intro a b hab
    rw [Bool.eq_false_iff]
    intro hba
    obtain ⟨ra, rb, ha, hb, h1⟩ := (compareVariants_eq_true_iff a b m).mp hab
    obtain ⟨rb2, ra2, hb2, ha2, h2⟩ := (compareVariants_eq_true_iff b a m).mp hba
    rw [ha] at ha2
    rw [hb] at hb2
    obtain rfl := Option.some.inj ha2
    obtain rfl := Option.some.inj hb2
    rcases h1 with h1 | ⟨rfl, h1s⟩
    · rcases h2 with h2 | ⟨h2e, _⟩
      · exact lt_asymm h1 h2
      · exact (ne_of_lt h1) h2e.symm
    · rcases h2 with h2 | ⟨_, h2s⟩
      · exact lt_irrefl _ h2
      · exact lt_asymm h1s h2s
  · intro a b c hab hbc
    rw [compareVariants_eq_true_iff] at hab hbc ⊢
    obtain ⟨ra, rb, ha, hb, h1⟩ := hab
    obtain ⟨rb2, rc, hb2, hc, h2⟩ := hbc
    rw [hb] at hb2
    obtain rfl := Option.some.inj hb2
    refine ⟨ra, rc, ha, hc, ?_⟩
    rcases h1 with h1 | ⟨rfl, h1s⟩
    · rcases h2 with h2 | ⟨rfl, _⟩
      · exact Or.inl (lt_trans h1 h2)
      · exact Or.inl h1
    · rcases h2 with h2 | ⟨rfl, h2s⟩
      · exact Or.inl h2
      · exact Or.inr ⟨rfl, lt_trans h1s h2s⟩

/-- Witness for C6 over the rank lookup, at chr2 variants with starts 10
and 20 and a chr1 variant with start 5. -/
theorem compareVariants_strict_weak_order_witness :
    CompareVariants ⟨"chr2", 10, emptyInfo⟩ ⟨"chr2", 10, emptyInfo⟩ demoLookup = false ∧
    CompareVariants ⟨"chr2", 20, emptyInfo⟩ ⟨"chr2", 10, emptyInfo⟩ demoLookup = false ∧
    CompareVariants ⟨"chr2", 10, emptyInfo⟩ ⟨"chr1", 5, emptyInfo⟩ demoLookup = true :=
  ⟨(compareVariants_strict_weak_order demoLookup).1 ⟨"chr2", 10, emptyInfo⟩,
    (compareVariants_strict_weak_order demoLookup).2.1 ⟨"chr2", 10, emptyInfo⟩
      ⟨"chr2", 20, emptyInfo⟩ rfl,
    (compareVariants_strict_weak_order demoLookup).2.2 ⟨"chr2", 10, emptyInfo⟩
      ⟨"chr2", 20, emptyInfo⟩ ⟨"chr1", 5, emptyInfo⟩ rfl rfl⟩

/-- Double quotation mark. -/
def doubleQuoteChar : Char :=
  Char.ofNat 34

/-- Single quotation mark. -/
def singleQuoteChar : Char :=
  Char.ofNat 39

/-- Whether a character is one of the two quote marks Unquote strips. -/
def isQuoteMark (c : Char) : Bool :=
  c == doubleQuoteChar || c == singleQuoteChar

/-- Unquote.  Modelled from the spec: the header only declares it
("removing quotation from the ends of the input; if the input string is
not quoted on both sides, using the same quote mark, returns the
input"); when the input has a quote mark first and the same mark last it
returns the middle, and otherwise the input unchanged. -/
def Unquote (input : List Char) : List Char :=
  match input with
  | [] => []
  | c :: rest =>
    if isQuoteMark c = true ∧ rest ≠ [] ∧ rest.getLast? = some c then rest.dropLast
    else c :: rest

/-- C10: when the input starts and ends with the same quote mark (single
or double), Unquote removes exactly one leading and one trailing mark;
any other input comes back unchanged. -/
theorem unquote_spec :
    (∀ (c : Char) (t : List Char), isQuoteMark c = true →
      Unquote (c :: (t ++ [c])) = t) ∧
    (∀ s : List Char,
      (¬ ∃ (c : Char) (t : List Char), isQuoteMark c = true ∧ s = c :: (t ++ [c])) →
      Unquote s = s) := by
  constructor
  · intro c t hc
    rw [Unquote, if_pos]
    · exact List.dropLast_concat
    · refine ⟨hc, by simp, ?_⟩
      rw [List.getLast?_concat]
  · intro s hs
    match s with
    | [] => rfl
    | c :: rest =>
      rw [Unquote, if_neg]
      intro hcond
      obtain ⟨hq, hne, hlast⟩ := hcond
      apply hs
      refine ⟨c, rest.dropLast, hq, ?_⟩
      have hlast2 : rest.getLast? = some (rest.getLast hne) := List.getLast?_eq_getLast rest hne
      rw [hlast2] at hlast
      obtain hlc := Option.some.inj hlast
      have : rest.dropLast ++ [rest.getLast hne] = rest := List.dropLast_append_getLast hne
      rw [hlc] at this
      rw [this]

/-- Witness for C10 on the double-quoted word foo and the unquoted
one-letter input f. -/
theorem unquote_spec_witness :
    (isQuoteMark doubleQuoteChar = true ∧
      Unquote (doubleQuoteChar :: (['f', 'o', 'o'] ++ [doubleQuoteChar])) = ['f', 'o', 'o']) ∧
    ((¬ ∃ (c : Char) (t : List Char),
        isQuoteMark c = true ∧ (['f'] : List Char) = c :: (t ++ [c])) ∧
      Unquote ['f'] = ['f']) :=
  have hne : ¬ ∃ (c : Char) (t : List Char),
      isQuoteMark c = true ∧ (['f'] : List Char) = c :: (t ++ [c]) := by
    rintro ⟨c, t, _, h⟩
    have hlen := congrArg List.length h
    simp [List.length_append] at hlen
  ⟨⟨by decide, unquote_spec.1 doubleQuoteChar ['f', 'o', 'o'] (by decide)⟩,
    ⟨hne, unquote_spec.2 ['f'] hne⟩⟩

end DeepVariant
